import Mathlib

/-
Verification of code-pick-recent-rs (src/main.rs).

Shallow embedding conventions:
* A Rust `&str` / `String` is a `List Char` of its Unicode scalar values.
  Rust indexes strings by UTF-8 *bytes* and panics on an out-of-range or
  non-character-boundary index, so byte-indexed slicing is modelled
  explicitly (`byteSliceFrom`, `byteTake`, `byteSlice`) and returns
  `Option`: `none` models the panic.
* `RustOutcome ε α` is the outcome of running a fragment of code:
  a normal value, a recoverable error (`anyhow::Error` carrying a message,
  or a parse error), or a panic.
* `SystemTime` is a `Nat`: seconds since the earliest representable
  instant; `SystemTime::checked_sub` is `checkedSub`, failing exactly when
  the subtraction would leave the representable range.
* Functions that print to stdout instead return the `List Char` they print;
  stderr diagnostics are not part of the returned text.
* The external JSON decoder (the sonic_rs crate) is modelled by the
  executable recursive-descent decoder `parseJsonValue`/`Json.parse`
  producing the tree of null/bool/number/string/array/object nodes the
  spec describes; object member lookup (`objGet`) returns the first
  member with the requested key, as sonic_rs does.
* The external percent-decoder (the urlencoding crate) is modelled by
  `percentDecode`: `%XX` pairs become bytes, malformed escapes pass
  through verbatim, and the resulting byte string must be valid UTF-8
  (`utf8Decode` is the strict validating decoder).
-/

/-- Outcome of running a fragment of Rust code: a normal value, a
recoverable error carrying a message, or a panic. -/
inductive RustOutcome (ε α : Type) where
  | ok (a : α)
  | err (e : ε)
  | panicked
deriving DecidableEq

/-- Number of bytes in the UTF-8 encoding of one scalar value
(Rust `char::len_utf8`). -/
def utf8Size (c : Char) : Nat :=
  if c.toNat < 0x80 then 1
  else if c.toNat < 0x800 then 2
  else if c.toNat < 0x10000 then 3
  else 4

/-- UTF-8 encoding of one scalar value, as byte values. -/
def utf8Bytes (c : Char) : List Nat :=
  let n := c.toNat
  if n < 0x80 then [n]
  else if n < 0x800 then [0xC0 + n / 0x40, 0x80 + n % 0x40]
  else if n < 0x10000 then
    [0xE0 + n / 0x1000, 0x80 + n / 0x40 % 0x40, 0x80 + n % 0x40]
  else
    [0xF0 + n / 0x40000, 0x80 + n / 0x1000 % 0x40, 0x80 + n / 0x40 % 0x40,
      0x80 + n % 0x40]

/-- Strict UTF-8 decoding with the validation `String::from_utf8` performs:
overlong forms, surrogates, out-of-range code points and truncated
sequences are rejected.  Fuelled; `utf8Decode` supplies enough fuel. -/
def utf8DecodeAux : Nat → List Nat → Option (List Char)
  | _, [] => some []
  | 0, _ :: _ => none
  | fuel + 1, b :: rest =>
    if b < 0x80 then
      (utf8DecodeAux fuel rest).map (fun cs => Char.ofNat b :: cs)
    else if b < 0xC2 then none
    else if b ≤ 0xDF then
      match rest with
      | [] => none
      | b2 :: rest2 =>
        if 0x80 ≤ b2 ∧ b2 ≤ 0xBF then
          (utf8DecodeAux fuel rest2).map
            (fun cs => Char.ofNat ((b - 0xC0) * 0x40 + (b2 - 0x80)) :: cs)
        else none
    else if b ≤ 0xEF then
      match rest with
      | b2 :: b3 :: rest3 =>
        let lo2 := if b = 0xE0 then 0xA0 else 0x80
        let hi2 := if b = 0xED then 0x9F else 0xBF
        if lo2 ≤ b2 ∧ b2 ≤ hi2 ∧ 0x80 ≤ b3 ∧ b3 ≤ 0xBF then
          (utf8DecodeAux fuel rest3).map (fun cs =>
            Char.ofNat ((b - 0xE0) * 0x1000 + (b2 - 0x80) * 0x40 + (b3 - 0x80))
              :: cs)
        else none
      | _ => none
    else if b ≤ 0xF4 then
      match rest with
      | b2 :: b3 :: b4 :: rest4 =>
        let lo2 := if b = 0xF0 then 0x90 else 0x80
        let hi2 := if b = 0xF4 then 0x8F else 0xBF
        if lo2 ≤ b2 ∧ b2 ≤ hi2 ∧ 0x80 ≤ b3 ∧ b3 ≤ 0xBF ∧ 0x80 ≤ b4 ∧ b4 ≤ 0xBF
        then
          (utf8DecodeAux fuel rest4).map (fun cs =>
            Char.ofNat ((b - 0xF0) * 0x40000 + (b2 - 0x80) * 0x1000 +
              (b3 - 0x80) * 0x40 + (b4 - 0x80)) :: cs)
        else none
      | _ => none
    else none

/-- Strict UTF-8 decoding of a byte string. -/
def utf8Decode (bs : List Nat) : Option (List Char) :=
  utf8DecodeAux bs.length bs

/-- A string whose scalar values are all ASCII; for such strings byte
indices and character indices coincide. -/
def allAscii (s : List Char) : Prop := ∀ c ∈ s, c.toNat < 0x80

instance (s : List Char) : Decidable (allAscii s) :=
  List.decidableBAll _ s

/-- Byte-indexed suffix `&s[i..]`: walks characters, accumulating their
UTF-8 widths; `none` when `i` is out of range or not a character
boundary (Rust panics there). -/
def byteSliceFrom : List Char → Nat → Option (List Char)
  | s, 0 => some s
  | [], _ + 1 => none
  | c :: rest, i + 1 =>
    if utf8Size c ≤ i + 1 then byteSliceFrom rest (i + 1 - utf8Size c) else none

/-- Byte-indexed take `&s[..n]`: `none` when `n` is out of range or not a
character boundary. -/
def byteTake : List Char → Nat → Option (List Char)
  | _, 0 => some []
  | [], _ + 1 => none
  | c :: rest, n + 1 =>
    if utf8Size c ≤ n + 1 then
      (byteTake rest (n + 1 - utf8Size c)).map (fun t => c :: t)
    else none

/-- Byte-indexed slice `&s[a..b]`; `none` models the panic. -/
def byteSlice (s : List Char) (a b : Nat) : Option (List Char) :=
  if a ≤ b then (byteSliceFrom s a).bind (fun t => byteTake t (b - a))
  else none

/-- `Iterator::position` over the characters of a string (a character
index, not a byte index). -/
def charPosition (p : Char → Bool) : List Char → Option Nat
  | [] => none
  | c :: rest => if p c then some 0 else (charPosition p rest).map (· + 1)

/-- Rust `str::starts_with` on a literal pattern. -/
def startsWith : List Char → List Char → Bool
  | [], _ => true
  | _ :: _, [] => false
  | p :: ps, c :: cs => p == c && startsWith ps cs

/-- Value of one hexadecimal digit, as `char::to_digit(16)` accepts them. -/
def hexVal? (c : Char) : Option Nat :=
  if 48 ≤ c.toNat ∧ c.toNat ≤ 57 then some (c.toNat - 48)
  else if 97 ≤ c.toNat ∧ c.toNat ≤ 102 then some (c.toNat - 87)
  else if 65 ≤ c.toNat ∧ c.toNat ≤ 70 then some (c.toNat - 55)
  else none

/-- Digit loop of `u8::from_str_radix(_, 16)` after an optional leading
`+`: every character must be a hexadecimal digit and the accumulated
value must stay within `u8` (checked multiply/add). -/
def parseU8Hex : List Char → Nat → Option Nat
  | [], acc => some acc
  | c :: rest, acc =>
    match hexVal? c with
    | none => none
    | some d => if acc * 16 + d ≤ 255 then parseU8Hex rest (acc * 16 + d) else none

/-- Digit loop of `u8::from_str_radix(_, 16)` after a leading `-`: for an
unsigned target every digit must be zero (checked subtraction from 0). -/
def parseU8HexNeg : List Char → Nat → Option Nat
  | [], acc => some acc
  | c :: rest, acc =>
    match hexVal? c with
    | none => none
    | some d => if d = 0 then parseU8HexNeg rest acc else none

/-- `u8::from_str_radix(s, 16)`: optional leading sign, then a nonempty
run of hexadecimal digits, value within `u8`. -/
def fromStrRadix16U8 (s : List Char) : Option Nat :=
  match s with
  | [] => none
  | c :: rest =>
    if c = '+' then
      match rest with
      | [] => none
      | _ :: _ => parseU8Hex rest 0
    else if c = '-' then
      match rest with
      | [] => none
      | _ :: _ => parseU8HexNeg rest 0
    else parseU8Hex (c :: rest) 0

/-- The hex-decode loop of `extract_folder_name_from_remote_val`
(main.rs 364-367): for `i = hex_start, hex_start+2, ...` below `hex_end`,
slice `&rest[i..i+2]` by bytes, parse it with `u8::from_str_radix(_, 16)`
and cast the byte to `char`; collecting into `Result` stops at the first
parse error.  `none` from the slice models the panic. -/
def hexLoopAux : Nat → List Char → Nat → Nat → RustOutcome Unit (List Char)
  | 0, _, _, _ => .ok []
  | fuel + 1, rest, i, stop =>
    if i < stop then
      match byteSlice rest i (i + 2) with
      | none => .panicked
      | some chunk =>
        match fromStrRadix16U8 chunk with
        | none => .err ()
        | some b =>
          match hexLoopAux fuel rest (i + 2) stop with
          | .ok s => .ok (Char.ofNat b :: s)
          | .err e => .err e
          | .panicked => .panicked
    else .ok []

/-- The loop itself: `stop - i` bounds the number of iterations. -/
def hexLoop (rest : List Char) (i stop : Nat) : RustOutcome Unit (List Char) :=
  hexLoopAux (stop - i) rest i stop

/-- Two-characters-at-a-time restatement of `hexLoop` on the payload
alone, used to reason about it: an odd-length payload makes the final
chunk pick up the terminating `/`. -/
def chunkSpec : List Char → RustOutcome Unit (List Char)
  | [] => .ok []
  | [c] =>
    match fromStrRadix16U8 [c, '/'] with
    | none => .err ()
    | some b => .ok [Char.ofNat b]
  | c1 :: c2 :: rest =>
    match fromStrRadix16U8 [c1, c2] with
    | none => .err ()
    | some b =>
      match chunkSpec rest with
      | .ok s => .ok (Char.ofNat b :: s)
      | .err e => .err e
      | .panicked => .panicked

/-- Byte values produced by hex-decoding an (even-length, all-hex)
payload two digits at a time. -/
def hexPairBytes : List Char → List Nat
  | c1 :: c2 :: rest =>
    (((hexVal? c1).getD 0) * 16 + (hexVal? c2).getD 0) :: hexPairBytes rest
  | _ => []

/-- JSON tree, as the spec's black-box decoder produces it:
null/bool/number/string/array/object nodes.  Numbers keep their raw
text, which no verified property inspects. -/
inductive Json where
  | null
  | bool (b : Bool)
  | num (raw : List Char)
  | str (s : List Char)
  | arr (xs : List Json)
  | obj (kvs : List (List Char × Json))

/-- JSON insignificant whitespace. -/
def jsonWs (c : Char) : Bool :=
  c == ' ' || c == '\t' || c == '\n' || c == '\r'

/-- Skip insignificant whitespace. -/
def skipWs (s : List Char) : List Char := s.dropWhile jsonWs

/-- Body of a JSON string after the opening quote: returns the decoded
content and the remainder after the closing quote.  Handles the standard
escapes, `\uXXXX` and surrogate pairs. -/
def parseJStringBody : List Char → Option (List Char × List Char)
  | [] => none
  | '"' :: rest => some ([], rest)
  | '\\' :: 'u' :: h1 :: h2 :: h3 :: h4 :: rest =>
    (match hexVal? h1, hexVal? h2, hexVal? h3, hexVal? h4 with
      | some a, some b, some c, some d =>
        let n := ((a * 16 + b) * 16 + c) * 16 + d
        if n < 0xD800 ∨ 0xDFFF < n then
          (parseJStringBody rest).map (fun r => (Char.ofNat n :: r.1, r.2))
        else if n ≤ 0xDBFF then
          match rest with
          | '\\' :: 'u' :: g1 :: g2 :: g3 :: g4 :: rest2 =>
            (match hexVal? g1, hexVal? g2, hexVal? g3, hexVal? g4 with
              | some a2, some b2, some c2, some d2 =>
                let m := ((a2 * 16 + b2) * 16 + c2) * 16 + d2
                if 0xDC00 ≤ m ∧ m ≤ 0xDFFF then
                  (parseJStringBody rest2).map (fun r =>
                    (Char.ofNat (0x10000 + (n - 0xD800) * 0x400 + (m - 0xDC00))
                      :: r.1, r.2))
                else none
              | _, _, _, _ => none)
          | _ => none
        else none
      | _, _, _, _ => none)
  | '\\' :: e :: rest =>
    (match
        (if e = '"' then some '"'
          else if e = '\\' then some '\\'
          else if e = '/' then some '/'
          else if e = 'b' then some '\x08'
          else if e = 'f' then some '\x0c'
          else if e = 'n' then some '\n'
          else if e = 'r' then some '\r'
          else if e = 't' then some '\t'
          else none) with
      | some c => (parseJStringBody rest).map (fun r => (c :: r.1, r.2))
      | none => none)
  | c :: rest =>
    if c.toNat < 0x20 then none
    else (parseJStringBody rest).map (fun r => (c :: r.1, r.2))

/-- Characters that may continue a JSON number token. -/
def jsonNumChar (c : Char) : Bool :=
  c.isDigit || c == '-' || c == '+' || c == '.' || c == 'e' || c == 'E'

mutual

/-- One JSON value and the remaining input.  Fuelled; `Json.parse`
supplies enough fuel for any input. -/
def parseJsonValue : Nat → List Char → Option (Json × List Char)
  | 0, _ => none
  | fuel + 1, s =>
    match skipWs s with
    | [] => none
    | c :: rest =>
      if c = '{' then
        match skipWs rest with
        | '}' :: r2 => some (.obj [], r2)
        | r2 => parseJsonMembers fuel r2 []
      else if c = '[' then
        match skipWs rest with
        | ']' :: r2 => some (.arr [], r2)
        | r2 => parseJsonItems fuel r2 []
      else if c = '"' then
        (parseJStringBody rest).map (fun r => (.str r.1, r.2))
      else if c = 't' then
        if "rue".toList.isPrefixOf rest then some (.bool true, rest.drop 3)
        else none
      else if c = 'f' then
        if "alse".toList.isPrefixOf rest then some (.bool false, rest.drop 4)
        else none
      else if c = 'n' then
        if "ull".toList.isPrefixOf rest then some (.null, rest.drop 3)
        else none
      else if c == '-' || c.isDigit then
        let sp := (c :: rest).span jsonNumChar
        some (.num sp.1, sp.2)
      else none

/-- Members of a JSON object after the opening brace (nonempty case). -/
def parseJsonMembers : Nat → List Char → List (List Char × Json) →
    Option (Json × List Char)
  | 0, _, _ => none
  | fuel + 1, s, acc =>
    match s with
    | '"' :: rest =>
      (match parseJStringBody rest with
        | none => none
        | some (key, rest2) =>
          match skipWs rest2 with
          | ':' :: rest3 =>
            (match parseJsonValue fuel (skipWs rest3) with
              | none => none
              | some (v, rest4) =>
                match skipWs rest4 with
                | ',' :: rest5 =>
                  parseJsonMembers fuel (skipWs rest5) (acc ++ [(key, v)])
                | '}' :: rest5 => some (.obj (acc ++ [(key, v)]), rest5)
                | _ => none)
          | _ => none)
    | _ => none

/-- Items of a JSON array after the opening bracket (nonempty case). -/
def parseJsonItems : Nat → List Char → List Json → Option (Json × List Char)
  | 0, _, _ => none
  | fuel + 1, s, acc =>
    match parseJsonValue fuel s with
    | none => none
    | some (v, rest) =>
      match skipWs rest with
      | ',' :: rest2 => parseJsonItems fuel (skipWs rest2) (acc ++ [v])
      | ']' :: rest2 => some (.arr (acc ++ [v]), rest2)
      | _ => none

end

/-- `sonic_rs::from_str`: a complete JSON document, with only
whitespace allowed after the value. -/
def Json.parse (s : List Char) : Option Json :=
  match parseJsonValue (s.length + 1) s with
  | none => none
  | some (v, rest) => if skipWs rest = [] then some v else none

/-- Object member lookup (`sonic_rs` `Object::get`): value of the first
member carrying the requested key. -/
def objGet (kvs : List (List Char × Json)) (key : List Char) : Option Json :=
  (kvs.find? (fun kv => kv.1 == key)).map (fun kv => kv.2)

/-- `Value::as_object`. -/
def Json.asObject : Json → Option (List (List Char × Json))
  | .obj kvs => some kvs
  | _ => none

/-- `Value::as_str`. -/
def Json.asStr : Json → Option (List Char)
  | .str s => some s
  | _ => none

/-- `hint_addition_from_path` (main.rs 422-429). -/
def hint_addition_from_path (path : List Char) : Option (List Char) :=
  if path = "hostPath".toList then none
  else if path = "repositoryPath".toList then some "repository".toList
  else if path = "volumeName".toList then some "volume".toList
  else some "unknown".toList

/-- The key-probing loop of `hint_addition_from_json_slice`
(main.rs 410-418): skip a key that is missing or whose value is not a
string; the first string-valued key wins. -/
def probeKeyLoop (kvs : List (List Char × Json)) :
    List (List Char) → Option (List Char × Option (List Char))
  | [] => none
  | p :: rest =>
    match objGet kvs p with
    | none => probeKeyLoop kvs rest
    | some v =>
      match v.asStr with
      | none => probeKeyLoop kvs rest
      | some s => some (s, hint_addition_from_path p)

/-- `hint_addition_from_json_slice` (main.rs 407-420). -/
def hint_addition_from_json_slice (v : List Char) :
    Option (List Char × Option (List Char)) :=
  match Json.parse v with
  | none => none
  | some val =>
    match val.asObject with
    | none => none
    | some kvs =>
      probeKeyLoop kvs
        ["hostPath".toList, "repositoryPath".toList, "volumeName".toList]

/-- Spec-side restatement of the key probing, following the words of
spec §4.2 step 5: probe `hostPath`, `repositoryPath`, `volumeName` in
strict order; the first string-valued key wins, with qualifier None,
Repository (`repository`) or Volume (`volume`) respectively; no match
yields nothing.  To be compared with the source-side
`hint_addition_from_json_slice`. -/
def probeSpec (kvs : List (List Char × Json)) :
    Option (List Char × Option (List Char)) :=
  match (objGet kvs "hostPath".toList).bind Json.asStr with
  | some s => some (s, none)
  | none =>
    match (objGet kvs "repositoryPath".toList).bind Json.asStr with
    | some s => some (s, some "repository".toList)
    | none =>
      match (objGet kvs "volumeName".toList).bind Json.asStr with
      | some s => some (s, some "volume".toList)
      | none => none

/-- `DisplayInfoHint` (main.rs 658-662). -/
structure DisplayInfoHint where
  remote_type : List Char
  addition : Option (List Char)
deriving DecidableEq

/-- `DisplayInfo` (main.rs 617-621). -/
structure DisplayInfo where
  val : List Char
  hint : Option DisplayInfoHint
deriving DecidableEq

/-- `get_display_string_from_remote_type` (main.rs 399-405). -/
def get_display_string_from_remote_type (remote_type : List Char) : List Char :=
  if remote_type = "dev-container".toList then "Dev Container".toList
  else if remote_type = "ssh-remote".toList then "SSH Remote".toList
  else remote_type

/-- `extract_folder_name_from_remote_val` (main.rs 348-397).
`charPosition` yields character indices, which the source then uses as
byte indices for slicing, exactly as the Rust code does. -/
def extract_folder_name_from_remote_val (rest : List Char) :
    RustOutcome (List Char) DisplayInfo :=
  match charPosition (· == '+') rest with
  | none => .err "No space found!".toList
  | some remote_type_end =>
    let hex_start := remote_type_end + 1
    match byteSliceFrom rest hex_start with
    | none => .panicked
    | some rest_from_hex =>
      match charPosition (· == '/') rest_from_hex with
      | none => .err "No slash found after first space!".toList
      | some slash_pos =>
        let hex_end := slash_pos + hex_start
        match byteSlice rest 0 remote_type_end with
        | none => .panicked
        | some remote_type_raw =>
          let remote_type := get_display_string_from_remote_type remote_type_raw
          match hexLoop rest hex_start hex_end with
          | .panicked => .panicked
          | .err _ => .ok ⟨rest_from_hex, some ⟨remote_type, none⟩⟩
          | .ok v =>
            match hint_addition_from_json_slice v with
            | some (val, addition) => .ok ⟨val, some ⟨remote_type, addition⟩⟩
            | none => .ok ⟨v, some ⟨remote_type, none⟩⟩

/-- `print_display_info` (main.rs 623-644), as the text it prints. -/
def printDisplayInfo (info : DisplayInfo) (use_pango_markup : Bool) :
    List Char :=
  info.val ++
    match info.hint with
    | none => []
    | some h =>
      " ".toList ++ (if use_pango_markup then "<small>".toList else []) ++
        "(".toList ++ h.remote_type ++
        (match h.addition with
          | some a => '|' :: a
          | none => []) ++
        (if use_pango_markup then "</small>".toList else []) ++ ")".toList

/-- Remove every occurrence of one character
(`str::replace` with the empty replacement). -/
def removeChar (ch : Char) (s : List Char) : List Char :=
  s.filter (fun c => !(c == ch))

/-- The sanitization chain of `digest_folder_uri` (main.rs 317):
strip tabs, then newlines, then NULs. -/
def sanitize (s : List Char) : List Char :=
  removeChar '\x00' (removeChar '\n' (removeChar '\t' s))

/-- Byte string obtained by percent-decoding (the urlencoding crate):
a `%` followed by two hex digits becomes one byte; a malformed escape
passes through verbatim. -/
def percentDecodeBytes : List Char → List Nat
  | [] => []
  | '%' :: c1 :: c2 :: rest =>
    match hexVal? c1, hexVal? c2 with
    | some d1, some d2 => (16 * d1 + d2) :: percentDecodeBytes rest
    | _, _ => utf8Bytes '%' ++ percentDecodeBytes (c1 :: c2 :: rest)
  | c :: rest => utf8Bytes c ++ percentDecodeBytes rest

/-- `urlencoding::decode`: percent-decode to bytes, then validate the
result as UTF-8; the only error is invalid UTF-8. -/
def percentDecode (s : List Char) : Except (List Char) (List Char) :=
  match utf8Decode (percentDecodeBytes s) with
  | some v => .ok v
  | none => .error "invalid utf-8 sequence".toList

/-- `digest_folder_uri` (main.rs 300-346), as the text it prints to
stdout.  The stderr diagnostics of the remote-parse-failure branch are
not part of the returned text; note that branch still prints
`clean_val` to stdout and succeeds. -/
def digest_folder_uri (raw : List Char)
    (null_terminated use_pango_markup with_dirs with_remotes
      create_display_strings : Bool) : RustOutcome (List Char) (List Char) :=
  match percentDecode raw with
  | .error e => .err e
  | .ok val =>
    let starts_with_file := with_dirs && startsWith "file://".toList val
    let starts_with_remote :=
      with_remotes && startsWith "vscode-remote://".toList val
    if !starts_with_file && !starts_with_remote then .ok []
    else
      let clean_val := sanitize val
      let body : RustOutcome (List Char) (List Char) :=
        if create_display_strings then
          if starts_with_file then
            match byteSliceFrom val 7 with
            | none => .panicked
            | some suffix => .ok (clean_val ++ '\t' :: suffix)
          else if starts_with_remote then
            match byteSliceFrom val 16 with
            | none => .panicked
            | some tail =>
              match extract_folder_name_from_remote_val tail with
              | .panicked => .panicked
              | .err _ => .ok (clean_val ++ '\t' :: clean_val)
              | .ok r => .ok (clean_val ++ '\t' :: printDisplayInfo r use_pango_markup)
          else .ok (clean_val ++ '\t' :: clean_val)
        else .ok clean_val
      match body with
      | .ok line =>
        .ok (line ++ (if null_terminated then ['\x00'] else []) ++ ['\n'])
      | .err e => .err e
      | .panicked => .panicked

/-- `FolderEntry` (main.rs 232-236); `last_modified_at` in seconds since
the earliest representable instant. -/
structure FolderEntry where
  path : List Char
  last_modified_at : Nat
deriving DecidableEq

/-- `SystemTime::checked_sub` on seconds. -/
def checkedSub (t sub : Nat) : Option Nat :=
  if sub ≤ t then some (t - sub) else none

/-- `get_min_system_time_from_max_age_days` (main.rs 222-230). -/
def get_min_system_time_from_max_age_days (now : Nat) (max_age_days : Nat) :
    Except (List Char) Nat :=
  match checkedSub now (max_age_days * 86400) with
  | some t => .ok t
  | none => .error "`max-age-days` too big".toList

/-- The `read_dir` filter_map of `collect_items_in_workspaces` /
`collect_items_in_history` (main.rs 183-199, 553-569): a failed
directory entry is logged and skipped; a successful one is dropped when
its modification time is strictly below the cutoff. -/
def filterEntries (raw : List (Except (List Char) FolderEntry))
    (min_system_time : Option Nat) : List FolderEntry :=
  raw.filterMap fun r =>
    match r with
    | .error _ => none
    | .ok e =>
      match min_system_time with
      | some m => if e.last_modified_at < m then none else some e
      | none => some e

/-- Insertion step of the stable descending sort: an element goes in
front of the first element whose timestamp is not greater. -/
def insertByRecency (e : FolderEntry) : List FolderEntry → List FolderEntry
  | [] => [e]
  | x :: xs =>
    if x.last_modified_at ≤ e.last_modified_at then e :: x :: xs
    else x :: insertByRecency e xs

/-- The stable sort of main.rs 201 / 571:
`sort_by(|e1, e2| e1.last_modified_at.cmp(&e2.last_modified_at).reverse())`.
Rust's `sort_by` is stable, and a stable sort for a fixed total preorder
has a unique result, so this insertion sort is extensionally the same
function. -/
def sortByRecencyDesc : List FolderEntry → List FolderEntry
  | [] => []
  | x :: xs => insertByRecency x (sortByRecencyDesc xs)

/-- `usize::MAX` on a 64-bit target, the default limit (main.rs 203). -/
def usizeMax : Nat := 2 ^ 64 - 1

/-- `entries.into_iter().take(limit.unwrap_or(usize::MAX))`. -/
def applyLimit (limit : Option Nat) (l : List FolderEntry) : List FolderEntry :=
  l.take (limit.getD usizeMax)

/-- `Option<Result<_,_>> -> Result<Option<_>,_>` (`Option::transpose`). -/
def optionTranspose : Option (Except (List Char) Nat) →
    Except (List Char) (Option Nat)
  | none => .ok none
  | some (.ok v) => .ok (some v)
  | some (.error e) => .error e

/-- `collect_items_in_workspaces` (main.rs 167-220) up to the per-entry
digest loop: computes the cutoff (failing fast when it is not
representable), filters, sorts by recency and truncates; the result is
the list of entries subsequently digested and printed. -/
def collect_items_in_workspaces (now : Nat)
    (raw_entries : List (Except (List Char) FolderEntry))
    (max_age_days : Option Nat) (limit : Option Nat) :
    Except (List Char) (List FolderEntry) :=
  match optionTranspose
      (max_age_days.map (get_min_system_time_from_max_age_days now)) with
  | .error e => .error e
  | .ok min_system_time =>
    .ok (applyLimit limit (sortByRecencyDesc (filterEntries raw_entries min_system_time)))

/-- `collect_items_in_history` (main.rs 537-590) up to the per-entry
digest loop; same pipeline as the workspaces source. -/
def collect_items_in_history (now : Nat)
    (raw_entries : List (Except (List Char) FolderEntry))
    (limit : Option Nat) (max_age_days : Option Nat) :
    Except (List Char) (List FolderEntry) :=
  match optionTranspose
      (max_age_days.map (get_min_system_time_from_max_age_days now)) with
  | .error e => .error e
  | .ok min_system_time =>
    .ok (applyLimit limit (sortByRecencyDesc (filterEntries raw_entries min_system_time)))

/-- `RecentEntryType` (main.rs 646-650). -/
inductive RecentEntryType where
  | File
  | Dir
deriving DecidableEq

/-- `RecentEntry` (main.rs 652-656). -/
structure RecentEntry where
  t : RecentEntryType
  val : List Char
deriving DecidableEq

/-- `RecentOrder` (main.rs 85-92). -/
inductive RecentOrder where
  | Unchanged
  | FilesFirst
  | DirsFirst
deriving DecidableEq

/-- The ordering stage of `collect_items_in_menu_settings`
(main.rs 507-516): `Unchanged` keeps iterator order; the other two
partition by `!((order == FilesFirst) ^ (entry is a file))` and emit the
first partition before the second.  `Iterator::partition` pushes
matching and non-matching elements in encounter order, which
`List.partition` mirrors. -/
def orderRecentEntries (order : RecentOrder) (uris : List RecentEntry) :
    List RecentEntry :=
  match order with
  | .Unchanged => uris
  | _ =>
    let part := uris.partition fun e =>
      !(Bool.xor (order == RecentOrder.FilesFirst) (e.t == RecentEntryType.File))
    part.1 ++ part.2

/-- Rust `char::is_whitespace` restricted to the ASCII range (the
characters beyond ASCII it also accepts are irrelevant to the verified
properties). -/
def isRustWs (c : Char) : Bool :=
  c == ' ' || c == '\t' || c == '\n' || c == '\r' || c == '\x0b' || c == '\x0c'

/-- `str::trim`. -/
def rustTrim (s : List Char) : List Char :=
  ((s.dropWhile isRustWs).reverse.dropWhile isRustWs).reverse

/-- The render loop body of `collect_items_in_menu_settings`
(main.rs 517-532) for one entry: percent-decode (a failure is logged and
the entry skipped), trim, strip tabs/newlines/NULs, then terminate the
record. -/
def render_recent_entry (e : RecentEntry) (null_terminated : Bool) :
    Option (List Char) :=
  match percentDecode e.val with
  | .error _ => none
  | .ok v =>
    some (sanitize (rustTrim v) ++
      (if null_terminated then ['\x00'] else []) ++ ['\n'])

/-- Output of the ordering-and-render tail of
`collect_items_in_menu_settings` on an extracted entry list. -/
def collect_items_in_menu_settings_output (uris : List RecentEntry)
    (order : RecentOrder) (null_terminated : Bool) : List Char :=
  ((orderRecentEntries order uris).filterMap
    (fun e => render_recent_entry e null_terminated)).flatten

/-! ## Helper lemmas -/

theorem utf8Size_of_ascii {c : Char} (h : c.toNat < 0x80) : utf8Size c = 1 := by
  simp [utf8Size, h]

theorem allAscii_of_append_left {l r : List Char} (h : allAscii (l ++ r)) :
    allAscii l := fun c hc => h c (List.mem_append_left _ hc)

theorem allAscii_of_append_right {l r : List Char} (h : allAscii (l ++ r)) :
    allAscii r := fun c hc => h c (List.mem_append_right _ hc)

theorem allAscii_of_cons {c : Char} {s : List Char} (h : allAscii (c :: s)) :
    allAscii s := fun x hx => h x (List.mem_cons_of_mem _ hx)

theorem allAscii_drop {s : List Char} (h : allAscii s) (n : Nat) :
    allAscii (s.drop n) := fun c hc => h c (List.drop_subset n s hc)

theorem byteSliceFrom_ascii (s : List Char) (hA : allAscii s) (i : Nat) :
    byteSliceFrom s i = if i ≤ s.length then some (s.drop i) else none := by
  induction s generalizing i with
  | nil => cases i <;> simp [byteSliceFrom]
  | cons c cs ih =>
    cases i with
    | zero => simp [byteSliceFrom]
    | succ n =>
      have hc : utf8Size c = 1 := utf8Size_of_ascii (hA c (by simp))
      have hA' : allAscii cs := allAscii_of_cons hA
      simp only [byteSliceFrom, hc]
      rw [if_pos (by omega)]
      simp only [Nat.add_sub_cancel, ih hA' n, List.length_cons,
        List.drop_succ_cons]
      by_cases h : n ≤ cs.length
      · rw [if_pos h, if_pos (by omega)]
      · rw [if_neg h, if_neg (by omega)]

theorem byteTake_ascii (s : List Char) (hA : allAscii s) (n : Nat) :
    byteTake s n = if n ≤ s.length then some (s.take n) else none := by
  induction s generalizing n with
  | nil => cases n <;> simp [byteTake]
  | cons c cs ih =>
    cases n with
    | zero => simp [byteTake]
    | succ m =>
      have hc : utf8Size c = 1 := utf8Size_of_ascii (hA c (by simp))
      have hA' : allAscii cs := allAscii_of_cons hA
      simp only [byteTake, hc]
      rw [if_pos (by omega)]
      simp only [Nat.add_sub_cancel, ih hA' m, List.length_cons,
        List.take_succ_cons]
      by_cases h : m ≤ cs.length
      · rw [if_pos h, if_pos (by omega)]
        rfl
      · rw [if_neg h, if_neg (by omega)]
        rfl

theorem byteSliceFrom_ascii_append (l t : List Char) (hA : allAscii l) :
    byteSliceFrom (l ++ t) l.length = some t := by
  induction l with
  | nil => simp [byteSliceFrom]
  | cons c cs ih =>
    have hc : utf8Size c = 1 := utf8Size_of_ascii (hA c (by simp))
    simp only [List.cons_append, List.length_cons, byteSliceFrom, hc]
    rw [if_pos (by omega)]
    simpa using ih (allAscii_of_cons hA)

theorem byteTake_ascii_append (l t : List Char) (hA : allAscii l) :
    byteTake (l ++ t) l.length = some l := by
  induction l with
  | nil => simp [byteTake]
  | cons c cs ih =>
    have hc : utf8Size c = 1 := utf8Size_of_ascii (hA c (by simp))
    show byteTake (c :: (cs ++ t)) (cs.length + 1) = some (c :: cs)
    simp only [byteTake, hc]
    rw [if_pos (by omega)]
    rw [Nat.add_sub_cancel, ih (allAscii_of_cons hA)]
    rfl

theorem charPosition_append (p : Char → Bool) (l : List Char) (a : Char)
    (r : List Char) (hl : ∀ c ∈ l, p c = false) (ha : p a = true) :
    charPosition p (l ++ a :: r) = some l.length := by
  induction l with
  | nil => simp [charPosition, ha]
  | cons c cs ih =>
    have hc : p c = false := hl c (by simp)
    simp [charPosition, hc, ih (fun x hx => hl x (List.mem_cons_of_mem _ hx))]

theorem hexLoopAux_congr :
    ∀ (f1 f2 : Nat) (rest : List Char) (i stop : Nat),
      stop - i ≤ f1 → stop - i ≤ f2 →
      hexLoopAux f1 rest i stop = hexLoopAux f2 rest i stop := by
  intro f1
  induction f1 with
  | zero =>
    intro f2 rest i stop h1 h2
    cases f2 with
    | zero => rfl
    | succ g =>
      simp only [hexLoopAux]
      rw [if_neg (by omega)]
  | succ f ih =>
    intro f2 rest i stop h1 h2
    cases f2 with
    | zero =>
      simp only [hexLoopAux]
      rw [if_neg (by omega)]
    | succ g =>
      simp only [hexLoopAux]
      by_cases hlt : i < stop
      · rw [if_pos hlt, if_pos hlt, ih g rest (i + 2) stop (by omega) (by omega)]
      · rw [if_neg hlt, if_neg hlt]

theorem hexLoop_stop (rest : List Char) (i stop : Nat) (h : ¬ i < stop) :
    hexLoop rest i stop = .ok [] := by
  unfold hexLoop
  rw [show stop - i = 0 from by omega]
  rfl

theorem hexLoop_step (rest : List Char) (i stop : Nat) (h : i < stop) :
    hexLoop rest i stop =
      match byteSlice rest i (i + 2) with
      | none => .panicked
      | some chunk =>
        match fromStrRadix16U8 chunk with
        | none => .err ()
        | some b =>
          match hexLoop rest (i + 2) stop with
          | .ok s => .ok (Char.ofNat b :: s)
          | .err e => .err e
          | .panicked => .panicked := by
  unfold hexLoop
  rw [show stop - i = (stop - i - 1) + 1 from by omega]
  simp only [hexLoopAux, if_pos h,
    hexLoopAux_congr (stop - i - 1) (stop - (i + 2)) rest (i + 2) stop
      (by omega) (by omega)]

/-- Recursion principle consuming a character list two elements at a
time, matching the shape of `chunkSpec`. -/
theorem twoStepInduction {motive : List Char → Prop} (h0 : motive [])
    (h1 : ∀ c, motive [c])
    (h2 : ∀ c1 c2 rest, motive rest → motive (c1 :: c2 :: rest)) :
    ∀ l, motive l
  | [] => h0
  | [c] => h1 c
  | c1 :: c2 :: rest => h2 c1 c2 rest (twoStepInduction h0 h1 h2 rest)

theorem hexLoop_step_some (rest : List Char) (i stop : Nat) (h : i < stop)
    (chunk : List Char) (hs : byteSlice rest i (i + 2) = some chunk) :
    hexLoop rest i stop =
      match fromStrRadix16U8 chunk with
      | none => .err ()
      | some b =>
        match hexLoop rest (i + 2) stop with
        | .ok s => .ok (Char.ofNat b :: s)
        | .err e => .err e
        | .panicked => .panicked := by
  rw [hexLoop_step rest i stop h, hs]

theorem hexLoop_eq_chunkSpec (rest : List Char) (hA : allAscii rest) :
    ∀ payload i tail, rest.drop i = payload ++ '/' :: tail →
      hexLoop rest i (i + payload.length) = chunkSpec payload := by
  intro payload
  induction payload using twoStepInduction with
  | h0 =>
    intro i tail hdrop
    simp only [List.length_nil, Nat.add_zero, chunkSpec]
    exact hexLoop_stop rest i i (by omega)
  | h1 c =>
    intro i tail hdrop
    have hlen := congrArg List.length hdrop
    simp only [List.length_drop, List.length_append, List.length_cons,
      List.length_nil] at hlen
    have hslice : byteSlice rest i (i + 2) = some [c, '/'] := by
      simp only [byteSlice, if_pos (by omega : i ≤ i + 2)]
      rw [byteSliceFrom_ascii rest hA i, if_pos (by omega)]
      simp only [Option.some_bind, Nat.add_sub_cancel_left]
      rw [byteTake_ascii _ (allAscii_drop hA i) 2,
        if_pos (by rw [List.length_drop]; omega)]
      rw [hdrop]
      rfl
    show hexLoop rest i (i + 1) = chunkSpec [c]
    rw [hexLoop_step_some rest i (i + 1) (by omega) [c, '/'] hslice]
    simp only [chunkSpec]
    cases hfs : fromStrRadix16U8 [c, '/'] with
    | none => rfl
    | some b =>
      rw [hexLoop_stop rest (i + 2) (i + 1) (by omega)]
  | h2 c1 c2 rest' ih =>
    intro i tail hdrop
    have hlen := congrArg List.length hdrop
    simp only [List.length_drop, List.length_append, List.length_cons,
      List.length_nil] at hlen
    have hslice : byteSlice rest i (i + 2) = some [c1, c2] := by
      simp only [byteSlice, if_pos (by omega : i ≤ i + 2)]
      rw [byteSliceFrom_ascii rest hA i, if_pos (by omega)]
      simp only [Option.some_bind, Nat.add_sub_cancel_left]
      rw [byteTake_ascii _ (allAscii_drop hA i) 2,
        if_pos (by rw [List.length_drop]; omega)]
      rw [hdrop]
      rfl
    have hdrop2 : rest.drop (i + 2) = rest' ++ '/' :: tail := by
      have h2d : (rest.drop i).drop 2 = rest' ++ '/' :: tail := by
        rw [hdrop]
        rfl
      rw [List.drop_drop] at h2d
      exact h2d
    have hrec := ih (i + 2) tail hdrop2
    rw [show i + 2 + rest'.length = i + rest'.length + 2 from by omega] at hrec
    show hexLoop rest i (i + rest'.length + 2) = chunkSpec (c1 :: c2 :: rest')
    rw [hexLoop_step_some rest i (i + rest'.length + 2) (by omega) [c1, c2]
      hslice]
    simp only [chunkSpec]
    cases hfs : fromStrRadix16U8 [c1, c2] with
    | none => rfl
    | some b =>
      rw [hrec]

theorem hexVal?_lt {c : Char} {v : Nat} (h : hexVal? c = some v) : v < 16 := by
  simp only [hexVal?] at h
  split at h
  · cases h; omega
  · split at h
    · cases h; omega
    · split at h
      · cases h; omega
      · cases h

theorem hexVal?_plus : hexVal? '+' = none := by decide

theorem hexVal?_minus : hexVal? '-' = none := by decide

theorem hexVal?_slash : hexVal? '/' = none := by decide

theorem fromStrRadix16U8_slash_end (c : Char) :
    fromStrRadix16U8 [c, '/'] = none := by
  simp only [fromStrRadix16U8]
  by_cases h1 : c = '+'
  · simp [h1, parseU8Hex, hexVal?_slash]
  · by_cases h2 : c = '-'
    · simp [h1, h2, parseU8HexNeg, hexVal?_slash]
    · simp only [if_neg h1, if_neg h2, parseU8Hex]
      cases hv : hexVal? c with
      | none => rfl
      | some d =>
        simp only [hexVal?_slash]
        split
        · rfl
        · rfl

theorem fromStrRadix16U8_bad_second (c1 c2 : Char) (h : hexVal? c2 = none) :
    fromStrRadix16U8 [c1, c2] = none := by
  simp only [fromStrRadix16U8]
  by_cases h1 : c1 = '+'
  · simp [h1, parseU8Hex, h]
  · by_cases h2 : c1 = '-'
    · simp [h1, h2, parseU8HexNeg, h]
    · simp only [if_neg h1, if_neg h2, parseU8Hex]
      cases hv : hexVal? c1 with
      | none => rfl
      | some d =>
        simp only [h]
        split
        · rfl
        · rfl

theorem fromStrRadix16U8_bad_first (c1 : Char) (rest : List Char)
    (hv : hexVal? c1 = none) (hplus : c1 ≠ '+') (hminus : c1 ≠ '-') :
    fromStrRadix16U8 (c1 :: rest) = none := by
  simp [fromStrRadix16U8, if_neg hplus, if_neg hminus, parseU8Hex, hv]

theorem fromStrRadix16U8_pair (c1 c2 : Char) (v1 v2 : Nat)
    (h1 : hexVal? c1 = some v1) (h2 : hexVal? c2 = some v2) :
    fromStrRadix16U8 [c1, c2] = some (v1 * 16 + v2) := by
  have hp : c1 ≠ '+' := fun hh => by rw [hh, hexVal?_plus] at h1; cases h1
  have hm : c1 ≠ '-' := fun hh => by rw [hh, hexVal?_minus] at h1; cases h1
  have hb1 := hexVal?_lt h1
  have hb2 := hexVal?_lt h2
  simp only [fromStrRadix16U8, if_neg hp, if_neg hm, parseU8Hex, h1, h2,
    Nat.zero_mul, Nat.zero_add]
  rw [if_pos (by omega), if_pos (by omega)]

theorem chunkSpec_err (payload : List Char)
    (h : payload.length % 2 = 1 ∨
      ∃ c ∈ payload, hexVal? c = none ∧ c ≠ '+' ∧ c ≠ '-') :
    chunkSpec payload = .err () := by
  induction payload using twoStepInduction with
  | h0 =>
    rcases h with h | h
    · simp at h
    · simp at h
  | h1 c => simp [chunkSpec, fromStrRadix16U8_slash_end]
  | h2 c1 c2 rest ih =>
    simp only [chunkSpec]
    cases hfs : fromStrRadix16U8 [c1, c2] with
    | none => rfl
    | some b =>
      have hrec : chunkSpec rest = .err () := by
        apply ih
        rcases h with h | ⟨c, hc, hbad⟩
        · left
          simp only [List.length_cons] at h
          omega
        · right
          rcases List.mem_cons.mp hc with rfl | hc2
          · rw [fromStrRadix16U8_bad_first c [c2] hbad.1 hbad.2.1 hbad.2.2]
              at hfs
            cases hfs
          · rcases List.mem_cons.mp hc2 with rfl | hc3
            · rw [fromStrRadix16U8_bad_second c1 c hbad.1] at hfs
              cases hfs
            · exact ⟨c, hc3, hbad⟩
      rw [hrec]

theorem chunkSpec_ok (payload : List Char)
    (heven : payload.length % 2 = 0)
    (hhex : ∀ c ∈ payload, hexVal? c ≠ none) :
    chunkSpec payload = .ok ((hexPairBytes payload).map Char.ofNat) := by
  induction payload using twoStepInduction with
  | h0 => simp [chunkSpec, hexPairBytes]
  | h1 c => simp at heven
  | h2 c1 c2 rest ih =>
    cases h1 : hexVal? c1 with
    | none => exact absurd h1 (hhex c1 (by simp))
    | some v1 =>
      cases h2 : hexVal? c2 with
      | none => exact absurd h2 (hhex c2 (by simp))
      | some v2 =>
        have hrec := ih (by simp only [List.length_cons] at heven; omega)
          (fun c hc => hhex c (by simp [hc]))
        simp only [chunkSpec, fromStrRadix16U8_pair c1 c2 v1 v2 h1 h2, hrec,
          hexPairBytes, h1, h2, Option.getD_some, List.map_cons]

theorem extract_decomposed (rt payload tail : List Char)
    (hA : allAscii (rt ++ '+' :: (payload ++ '/' :: tail)))
    (hrt : '+' ∉ rt) (hp : '/' ∉ payload) :
    extract_folder_name_from_remote_val (rt ++ '+' :: (payload ++ '/' :: tail)) =
      match chunkSpec payload with
      | .panicked => .panicked
      | .err _ =>
        .ok ⟨payload ++ '/' :: tail,
          some ⟨get_display_string_from_remote_type rt, none⟩⟩
      | .ok v =>
        match hint_addition_from_json_slice v with
        | some (val, addition) =>
          .ok ⟨val, some ⟨get_display_string_from_remote_type rt, addition⟩⟩
        | none =>
          .ok ⟨v, some ⟨get_display_string_from_remote_type rt, none⟩⟩ := by
  have hArt : allAscii rt := allAscii_of_append_left hA
  have hArtPlus : allAscii (rt ++ ['+']) := by
    intro c hc
    rcases List.mem_append.mp hc with h | h
    · exact hArt c h
    · simp only [List.mem_singleton] at h
      subst h
      decide
  have h1 : charPosition (· == '+') (rt ++ '+' :: (payload ++ '/' :: tail)) =
      some rt.length := by
    apply charPosition_append
    · intro c hc
      exact beq_eq_false_iff_ne.mpr (fun hh => hrt (hh ▸ hc))
    · simp
  have hsf : byteSliceFrom (rt ++ '+' :: (payload ++ '/' :: tail))
      (rt.length + 1) = some (payload ++ '/' :: tail) := by
    have := byteSliceFrom_ascii_append (rt ++ ['+']) (payload ++ '/' :: tail)
      hArtPlus
    simpa [List.append_assoc] using this
  have h2 : charPosition (· == '/') (payload ++ '/' :: tail) =
      some payload.length := by
    apply charPosition_append
    · intro c hc
      exact beq_eq_false_iff_ne.mpr (fun hh => hp (hh ▸ hc))
    · simp
  have h0s : byteSlice (rt ++ '+' :: (payload ++ '/' :: tail)) 0 rt.length =
      some rt := by
    simp only [byteSlice, if_pos (Nat.zero_le _), byteSliceFrom,
      Option.some_bind, Nat.sub_zero]
    exact byteTake_ascii_append rt ('+' :: (payload ++ '/' :: tail)) hArt
  have hdrop : (rt ++ '+' :: (payload ++ '/' :: tail)).drop (rt.length + 1) =
      payload ++ '/' :: tail := by
    have := List.drop_left (rt ++ ['+']) (payload ++ '/' :: tail)
    simpa [List.append_assoc] using this
  have hbridge := hexLoop_eq_chunkSpec _ hA payload (rt.length + 1) tail hdrop
  rw [Nat.add_comm (rt.length + 1) payload.length] at hbridge
  simp only [extract_folder_name_from_remote_val, h1, hsf, h2, h0s, hbridge]

theorem startsWith_self_append (p s : List Char) :
    startsWith p (p ++ s) = true := by
  induction p with
  | nil => rfl
  | cons c cs ih => simp [startsWith, ih]

theorem utf8DecodeAux_ascii (fuel : Nat) :
    ∀ bs : List Nat, bs.length ≤ fuel → (∀ b ∈ bs, b < 0x80) →
      utf8DecodeAux fuel bs = some (bs.map Char.ofNat) := by
  induction fuel with
  | zero =>
    intro bs hl _
    cases bs with
    | nil => rfl
    | cons b rest => simp at hl
  | succ n ih =>
    intro bs hl hb
    cases bs with
    | nil => rfl
    | cons b rest =>
      have hba : b < 0x80 := hb b (by simp)
      have hrec := ih rest (by simp at hl; omega)
        (fun x hx => hb x (by simp [hx]))
      simp [utf8DecodeAux, hba, hrec]

theorem utf8Decode_ascii (bs : List Nat) (hb : ∀ b ∈ bs, b < 0x80) :
    utf8Decode bs = some (bs.map Char.ofNat) :=
  utf8DecodeAux_ascii bs.length bs le_rfl hb

theorem probeKeyLoop_step (kvs : List (List Char × Json)) (p : List Char)
    (rest : List (List Char)) :
    probeKeyLoop kvs (p :: rest) =
      match (objGet kvs p).bind Json.asStr with
      | some s => some (s, hint_addition_from_path p)
      | none => probeKeyLoop kvs rest := by
  cases hg : objGet kvs p with
  | none => simp [probeKeyLoop, hg]
  | some j =>
    cases hs : j.asStr with
    | none => simp [probeKeyLoop, hg, hs]
    | some s => simp [probeKeyLoop, hg, hs]

/-! ## Claims -/

/-- C1, counterexample to the claim as stated: on the remote tail
`ssh-remote+0g/abc` (hex payload `0g` containing the invalid digit `g`)
the fallback primaryValue is `0g/abc` — the entire remainder after the
first `+`, tail path included — not the bare payload `0g`; and the
hint's remoteTypeLabel is the display-mapped `SSH Remote`, not the raw
code `ssh-remote`. -/
theorem claim_C1_cex :
    extract_folder_name_from_remote_val "ssh-remote+0g/abc".toList =
      .ok ⟨"0g/abc".toList, some ⟨"SSH Remote".toList, none⟩⟩ ∧
    "0g/abc".toList ≠ "0g".toList ∧
    "SSH Remote".toList ≠ "ssh-remote".toList := by
  refine ⟨by decide, by decide, by decide⟩

/-- C1 (amended): for every ASCII remote-identifier tail
`remoteType + hexPayload / tailPath` whose hex payload has odd length or
contains a character that is not a hexadecimal digit (nor a sign
character `+`/`-`, which the chunked `from_str_radix` parsing accepts at
the start of a pair), the resolver falls back without error: the
returned primaryValue is everything after the first `+` (the hex
payload together with the `/` and the tail path), the hint's
remoteTypeLabel is the display-mapped remote-type code (the raw code
exactly when it is unrecognized), the qualifier is None, and the entry
is still processed (an `ok` outcome) rather than dropped. -/
theorem claim_C1 (rt payload tail : List Char)
    (hA : allAscii (rt ++ '+' :: (payload ++ '/' :: tail)))
    (hrt : '+' ∉ rt) (hp : '/' ∉ payload)
    (hbad : payload.length % 2 = 1 ∨
      ∃ c ∈ payload, hexVal? c = none ∧ c ≠ '+' ∧ c ≠ '-') :
    extract_folder_name_from_remote_val
        (rt ++ '+' :: (payload ++ '/' :: tail)) =
      .ok ⟨payload ++ '/' :: tail,
        some ⟨get_display_string_from_remote_type rt, none⟩⟩ := by
  rw [extract_decomposed rt payload tail hA hrt hp,
    chunkSpec_err payload hbad]

/-- Witness for C1 at the concrete tail `xx+abc/t` (odd-length payload
`abc`, unrecognized remote type `xx`). -/
theorem claim_C1_witness :
    extract_folder_name_from_remote_val
        ("xx".toList ++ '+' :: ("abc".toList ++ '/' :: "t".toList)) =
      .ok ⟨"abc".toList ++ '/' :: "t".toList,
        some ⟨get_display_string_from_remote_type "xx".toList, none⟩⟩ :=
  claim_C1 "xx".toList "abc".toList "t".toList (by decide) (by decide)
    (by decide) (Or.inl (by decide))

/-- C4, counterexample to the claim as stated: the payload `c3a9`
decodes to the bytes `C3 A9`, which are the valid UTF-8 encoding of the
one-character string `é`; the resolver instead produces the two
characters `U+00C3 U+00A9` (each byte cast to `char` individually), not
the UTF-8 interpretation. -/
theorem claim_C4_cex :
    utf8Decode [0xC3, 0xA9] = some ['é'] ∧
    extract_folder_name_from_remote_val "x+c3a9/t".toList =
      .ok ⟨['Ã', '©'], some ⟨"x".toList, none⟩⟩ ∧
    (['Ã', '©'] : List Char) ≠ ['é'] := by
  refine ⟨by decide, by decide, by decide⟩

/-- C4 (amended): for every ASCII remote tail whose hex payload decodes
successfully (even length, all hexadecimal digits), the decoded text
handed to JSON parsing and used as the fallback primaryValue is the
byte sequence of the payload with each byte cast individually to the
Unicode scalar of the same value (a Latin-1 reading), not the UTF-8
interpretation; the two readings agree exactly on ASCII bytes (second
conjunct). -/
theorem claim_C4 :
    (∀ rt payload tail : List Char,
      allAscii (rt ++ '+' :: (payload ++ '/' :: tail)) →
      '+' ∉ rt → '/' ∉ payload →
      payload.length % 2 = 0 → (∀ c ∈ payload, hexVal? c ≠ none) →
      extract_folder_name_from_remote_val
          (rt ++ '+' :: (payload ++ '/' :: tail)) =
        match hint_addition_from_json_slice
            ((hexPairBytes payload).map Char.ofNat) with
        | some (val, addition) =>
          .ok ⟨val, some ⟨get_display_string_from_remote_type rt, addition⟩⟩
        | none =>
          .ok ⟨(hexPairBytes payload).map Char.ofNat,
            some ⟨get_display_string_from_remote_type rt, none⟩⟩) ∧
    (∀ bs : List Nat, (∀ b ∈ bs, b < 0x80) →
      utf8Decode bs = some (bs.map Char.ofNat)) := by
  constructor
  · intro rt payload tail hA hrt hp heven hhex
    rw [extract_decomposed rt payload tail hA hrt hp,
      chunkSpec_ok payload heven hhex]
  · exact utf8Decode_ascii

/-- Witness for C4 at the concrete tail `x+7b7d/t`: the payload `7b7d`
decodes byte-by-byte to the text `\x7b\x7d`, which parses as the empty
JSON object, probing yields nothing, and the decoded text itself is the
primaryValue.  The second conjunct instantiates the ASCII agreement at
byte `0x41`. -/
theorem claim_C4_witness :
    extract_folder_name_from_remote_val
        ("x".toList ++ '+' :: ("7b7d".toList ++ '/' :: "t".toList)) =
      .ok ⟨"\x7b\x7d".toList,
        some ⟨get_display_string_from_remote_type "x".toList, none⟩⟩ ∧
    utf8Decode [0x41] = some ['A'] :=
  ⟨(claim_C4.1 "x".toList "7b7d".toList "t".toList (by decide) (by decide)
      (by decide) (by decide) (by decide)).trans (by decide),
    claim_C4.2 [0x41] (by decide)⟩

/-- C5 (confirmed): whenever the decoded payload parses as a JSON
object, the source-side probing agrees with the spec-side `probeSpec` —
keys `hostPath`, `repositoryPath`, `volumeName` in strict order, first
string-valued hit wins with qualifier None / `repository` / `volume`,
nothing on no match (in which case the resolver falls back to the
decoded text with qualifier None); and the concrete payload hex-decoding
to the hostPath object with remote type `ssh-remote` yields primaryValue
`/home/x` and hint `SSH Remote` with no qualifier. -/
theorem claim_C5 :
    (∀ (v : List Char) (kvs : List (List Char × Json)),
      Json.parse v = some (Json.obj kvs) →
      hint_addition_from_json_slice v = probeSpec kvs) ∧
    extract_folder_name_from_remote_val
        "ssh-remote+7b22686f737450617468223a222f686f6d652f78227d/x".toList =
      .ok ⟨"/home/x".toList, some ⟨"SSH Remote".toList, none⟩⟩ := by
  constructor
  · intro v kvs hparse
    have hap1 : hint_addition_from_path "hostPath".toList = none := by decide
    have hap2 : hint_addition_from_path "repositoryPath".toList =
        some "repository".toList := by decide
    have hap3 : hint_addition_from_path "volumeName".toList =
        some "volume".toList := by decide
    simp only [hint_addition_from_json_slice, hparse, Json.asObject,
      probeKeyLoop, probeSpec, hap1, hap2, hap3]
    cases hg1 : objGet kvs "hostPath".toList with
    | some j1 =>
      simp only [Option.some_bind]
      cases hs1 : j1.asStr with
      | some s => simp
      | none =>
        cases hg2 : objGet kvs "repositoryPath".toList with
        | some j2 =>
          simp only [Option.some_bind]
          cases hs2 : j2.asStr with
          | some s => simp
          | none =>
            cases hg3 : objGet kvs "volumeName".toList with
            | some j3 =>
              simp only [Option.some_bind]
              cases hs3 : j3.asStr with
              | some s => simp
              | none => simp
            | none => simp
        | none =>
          cases hg3 : objGet kvs "volumeName".toList with
          | some j3 =>
            simp only [Option.some_bind]
            cases hs3 : j3.asStr with
            | some s => simp
            | none => simp
          | none => simp
    | none =>
      cases hg2 : objGet kvs "repositoryPath".toList with
      | some j2 =>
        simp only [Option.some_bind]
        cases hs2 : j2.asStr with
        | some s => simp
        | none =>
          cases hg3 : objGet kvs "volumeName".toList with
          | some j3 =>
            simp only [Option.some_bind]
            cases hs3 : j3.asStr with
            | some s => simp
            | none => simp
          | none => simp
      | none =>
        cases hg3 : objGet kvs "volumeName".toList with
        | some j3 =>
          simp only [Option.some_bind]
          cases hs3 : j3.asStr with
          | some s => simp
          | none => simp
        | none => simp
  · decide

/-- Witness for C5: the probing theorem applied to the decoded text
`\x7b"hostPath":"/home/x"\x7d` and the object node it parses to. -/
theorem claim_C5_witness :
    hint_addition_from_json_slice
        "\x7b\"hostPath\":\"/home/x\"\x7d".toList =
      some ("/home/x".toList, none) :=
  (claim_C5.1 "\x7b\"hostPath\":\"/home/x\"\x7d".toList
    [("hostPath".toList, Json.str "/home/x".toList)] (by rfl)).trans
    (by decide)

/-- C10 is the intended contract (the function returns `Result` and the
spec promises parse failures are errors, not crashes), but the code
violates it: `chars().position` computes character indices that are then
used as byte indices, so on the tail `é+61/x` the slice
`&rest[..remote_type_end]` falls inside the two-byte character `é` and
the program panics (second conjunct: byte index 1 is not a character
boundary). -/
theorem claim_C10 :
    extract_folder_name_from_remote_val "é+61/x".toList = .panicked ∧
    byteSlice "é+61/x".toList 0 1 = none := by
  refine ⟨by decide, by decide⟩

theorem insertByRecency_perm (e : FolderEntry) (l : List FolderEntry) :
    (insertByRecency e l).Perm (e :: l) := by
  induction l with
  | nil => exact List.Perm.refl _
  | cons x xs ih =>
    simp only [insertByRecency]
    by_cases h : x.last_modified_at ≤ e.last_modified_at
    · rw [if_pos h]
    · rw [if_neg h]
      exact (ih.cons x).trans (List.Perm.swap e x xs)

theorem sortByRecencyDesc_perm (l : List FolderEntry) :
    (sortByRecencyDesc l).Perm l := by
  induction l with
  | nil => exact List.Perm.refl _
  | cons x xs ih =>
    exact (insertByRecency_perm x (sortByRecencyDesc xs)).trans (ih.cons x)

theorem insertByRecency_sorted (e : FolderEntry) (l : List FolderEntry)
    (hl : l.Pairwise (fun a b => b.last_modified_at ≤ a.last_modified_at)) :
    (insertByRecency e l).Pairwise
      (fun a b => b.last_modified_at ≤ a.last_modified_at) := by
  induction l with
  | nil => simp [insertByRecency]
  | cons x xs ih =>
    rcases List.pairwise_cons.mp hl with ⟨hx, hxs⟩
    simp only [insertByRecency]
    by_cases h : x.last_modified_at ≤ e.last_modified_at
    · rw [if_pos h]
      refine List.pairwise_cons.mpr ⟨?_, hl⟩
      intro y hy
      rcases List.mem_cons.mp hy with rfl | hy2
      · exact h
      · exact le_trans (hx y hy2) h
    · rw [if_neg h]
      refine List.pairwise_cons.mpr ⟨?_, ih hxs⟩
      intro y hy
      have hmem := (insertByRecency_perm e xs).mem_iff.mp hy
      rcases List.mem_cons.mp hmem with rfl | hy2
      · omega
      · exact hx y hy2

theorem sortByRecencyDesc_sorted (l : List FolderEntry) :
    (sortByRecencyDesc l).Pairwise
      (fun a b => b.last_modified_at ≤ a.last_modified_at) := by
  induction l with
  | nil => simp [sortByRecencyDesc]
  | cons x xs ih => exact insertByRecency_sorted x _ ih

theorem filter_insertByRecency (e : FolderEntry) (l : List FolderEntry)
    (k : Nat) :
    (insertByRecency e l).filter (fun x => x.last_modified_at == k) =
      if e.last_modified_at == k then
        e :: l.filter (fun x => x.last_modified_at == k)
      else l.filter (fun x => x.last_modified_at == k) := by
  induction l with
  | nil =>
    cases hk : e.last_modified_at == k <;>
      simp [insertByRecency, List.filter_cons, hk]
  | cons x xs ih =>
    simp only [insertByRecency]
    by_cases h : x.last_modified_at ≤ e.last_modified_at
    · rw [if_pos h]
      simp only [List.filter_cons]
    · rw [if_neg h]
      simp only [List.filter_cons, ih]
      by_cases hpe : e.last_modified_at = k
      · have hpx : (x.last_modified_at == k) = false :=
          beq_eq_false_iff_ne.mpr (by omega)
        have hpe2 : (e.last_modified_at == k) = true := beq_iff_eq.mpr hpe
        simp [hpx, hpe2]
      · have hpe2 : (e.last_modified_at == k) = false :=
          beq_eq_false_iff_ne.mpr hpe
        simp [hpe2]

theorem sortByRecencyDesc_stable (l : List FolderEntry) (k : Nat) :
    (sortByRecencyDesc l).filter (fun x => x.last_modified_at == k) =
      l.filter (fun x => x.last_modified_at == k) := by
  induction l with
  | nil => rfl
  | cons x xs ih =>
    simp only [sortByRecencyDesc, filter_insertByRecency, ih,
      List.filter_cons]

theorem filterEntries_some (raw : List (Except (List Char) FolderEntry))
    (m : Nat) :
    filterEntries raw (some m) =
      (filterEntries raw none).filter
        (fun e => decide (m ≤ e.last_modified_at)) := by
  induction raw with
  | nil => rfl
  | cons r rest ih =>
    cases r with
    | error e =>
      simp only [filterEntries, List.filterMap_cons] at ih ⊢
      exact ih
    | ok e =>
      simp only [filterEntries, List.filterMap_cons] at ih ⊢
      by_cases hm : e.last_modified_at < m
      · rw [if_pos hm, List.filter_cons]
        rw [if_neg (by simp; omega)]
        exact ih
      · rw [if_neg hm, List.filter_cons]
        rw [if_pos (by simp; omega)]
        rw [ih]

/-- C2, counterexample to the claim as stated: in display mode the
display value of a `file://` entry is the unsanitized suffix of the
decoded URI, so a raw value containing a tab yields an output record
with two tabs — the field separator and the embedded tab that the claim
says is stripped from every output field. -/
theorem claim_C2_cex :
    digest_folder_uri "file:///a\tb".toList false false true false true =
      .ok "file:///ab\t/a\tb\n".toList ∧
    ("file:///ab\t/a\tb\n".toList).count '\t' = 2 := by
  refine ⟨by decide, by decide⟩

/-- C2 (amended): the sanitization applies to the raw value field — for
every string, the sanitized form contains no tab, newline or NUL, and
the menu source renders exactly the trimmed, sanitized decoded value —
but in display mode the display value of a local `file://` entry is the
suffix of the decoded URI after the prefix, printed without
sanitization. -/
theorem claim_C2 :
    (∀ s : List Char,
      '\t' ∉ sanitize s ∧ '\n' ∉ sanitize s ∧ '\x00' ∉ sanitize s) ∧
    (∀ (raw t : List Char) (nt wr p : Bool),
      percentDecode raw = .ok ("file://".toList ++ t) →
      digest_folder_uri raw nt p true wr true =
        .ok (sanitize ("file://".toList ++ t) ++ '\t' :: t ++
          (if nt then ['\x00'] else []) ++ ['\n'])) ∧
    (∀ (e : RecentEntry) (v : List Char) (nt : Bool),
      percentDecode e.val = .ok v →
      render_recent_entry e nt =
        some (sanitize (rustTrim v) ++
          (if nt then ['\x00'] else []) ++ ['\n'])) := by
  refine ⟨?_, ?_, ?_⟩
  · intro s
    refine ⟨?_, ?_, ?_⟩ <;>
      · intro h
        simp [sanitize, removeChar, List.mem_filter] at h
  · intro raw t nt wr p hdec
    simp [digest_folder_uri, hdec, startsWith, byteSliceFrom, utf8Size]
  · intro e v nt hdec
    simp [render_recent_entry, hdec]

/-- Witness for C2: a local entry `file:///a` in display mode and the
sanitizer on a tab-carrying string. -/
theorem claim_C2_witness :
    digest_folder_uri ("file://".toList ++ "/a".toList) false false true
        false true =
      .ok (sanitize ("file://".toList ++ "/a".toList) ++ '\t' :: "/a".toList ++
        (if false then ['\x00'] else []) ++ ['\n']) ∧
    '\t' ∉ sanitize "a\tb".toList :=
  ⟨claim_C2.2.1 ("file://".toList ++ "/a".toList) "/a".toList false false
      false (by rfl),
    (claim_C2.1 "a\tb".toList).1⟩

/-- C3, counterexample to the claim as stated: the remote tail `abc`
has no `+`, a remote-identifier parse failure, yet the entry is not
excluded — it is rendered, with the sanitized raw value repeated as the
display value. -/
theorem claim_C3_cex :
    digest_folder_uri "vscode-remote://abc".toList false false false true
        true =
      .ok "vscode-remote://abc\tvscode-remote://abc\n".toList ∧
    digest_folder_uri "vscode-remote://abc".toList false false false true
        true ≠ .ok [] := by
  refine ⟨by decide, by decide⟩

/-- C3 (amended): on a remote-identifier parse failure (tail without a
`+`, or without a `/` after it — the two `err` outcomes of the
resolver), the failure is logged to diagnostics and the entry is still
rendered, with the sanitized raw value standing in for the display
value; processing of the remaining entries continues (the entry's
digest succeeds).  The parse is only attempted at all in display-string
mode. -/
theorem claim_C3 (raw t e : List Char) (nt p wd : Bool)
    (hdec : percentDecode raw = .ok ("vscode-remote://".toList ++ t))
    (hx : extract_folder_name_from_remote_val t = .err e) :
    digest_folder_uri raw nt p wd true true =
      .ok (sanitize ("vscode-remote://".toList ++ t) ++
        '\t' :: sanitize ("vscode-remote://".toList ++ t) ++
        (if nt then ['\x00'] else []) ++ ['\n']) := by
  simp [digest_folder_uri, hdec, hx, startsWith, byteSliceFrom, utf8Size]

/-- Witness for C3 at the concrete URI `vscode-remote://abc`. -/
theorem claim_C3_witness :
    digest_folder_uri "vscode-remote://abc".toList false false false true
        true =
      .ok (sanitize ("vscode-remote://".toList ++ "abc".toList) ++
        '\t' :: sanitize ("vscode-remote://".toList ++ "abc".toList) ++
        (if false then ['\x00'] else []) ++ ['\n']) :=
  claim_C3 "vscode-remote://abc".toList "abc".toList
    "No space found!".toList false false false (by rfl) (by rfl)

/-- C6 (confirmed): when the cutoff computation succeeds, the
directory-entry filter shared by the workspace-storage and history
sources keeps exactly the successfully read entries whose modification
time is at least `now - maxAgeDays * 86400` (the cutoff value), an
inclusive lower bound: the comparison dropping an entry is the strict
`last_modified_at < cutoff`. -/
theorem claim_C6 (now d m : Nat)
    (raw : List (Except (List Char) FolderEntry))
    (h : get_min_system_time_from_max_age_days now d = .ok m) :
    filterEntries raw (some m) =
      (filterEntries raw none).filter
        (fun e => decide (m ≤ e.last_modified_at)) ∧
    m = now - d * 86400 := by
  constructor
  · exact filterEntries_some raw m
  · simp only [get_min_system_time_from_max_age_days, checkedSub] at h
    split at h
    · rename_i x t heq
      simp at h
      split at heq
      · simp at heq
        omega
      · simp at heq
    · simp at h

/-- Witness for C6: `now = 172800`, one day of age window, cutoff
`86400`; the boundary entry at exactly the cutoff is kept, the entry
one second older is dropped, the unreadable entry is skipped. -/
theorem claim_C6_witness :
    (filterEntries
        [.ok ⟨"a".toList, 86400⟩, .ok ⟨"b".toList, 86399⟩,
          .error "e".toList] (some 86400) =
      (filterEntries
        [.ok ⟨"a".toList, 86400⟩, .ok ⟨"b".toList, 86399⟩,
          .error "e".toList] none).filter
        (fun e => decide (86400 ≤ e.last_modified_at)) ∧
    (86400 : Nat) = 172800 - 1 * 86400) ∧
    filterEntries
        [.ok ⟨"a".toList, 86400⟩, .ok ⟨"b".toList, 86399⟩,
          .error "e".toList] (some 86400) = [⟨"a".toList, 86400⟩] :=
  ⟨claim_C6 172800 1 86400
      [.ok ⟨"a".toList, 86400⟩, .ok ⟨"b".toList, 86399⟩,
        .error "e".toList] (by rfl),
    by decide⟩

/-- C7 (confirmed): the recency sort is a permutation, descending by
modification time, and stable (for every timestamp the entries carrying
it keep their source order); timestamps `[10, 30, 20]` come out as
`[30, 20, 10]`; after sorting, a configured limit keeps exactly the
first N entries, and the default limit (`usize::MAX`) keeps every
entry of any list that fits in memory. -/
theorem claim_C7 :
    (∀ l : List FolderEntry, (sortByRecencyDesc l).Perm l) ∧
    (∀ l : List FolderEntry, (sortByRecencyDesc l).Pairwise
      (fun a b => b.last_modified_at ≤ a.last_modified_at)) ∧
    (∀ (l : List FolderEntry) (k : Nat),
      (sortByRecencyDesc l).filter (fun e => e.last_modified_at == k) =
        l.filter (fun e => e.last_modified_at == k)) ∧
    ((sortByRecencyDesc
        [⟨"a".toList, 10⟩, ⟨"b".toList, 30⟩, ⟨"c".toList, 20⟩]).map
      (fun e => e.last_modified_at) = [30, 20, 10]) ∧
    (∀ (l : List FolderEntry) (n : Nat), applyLimit (some n) l = l.take n) ∧
    (∀ l : List FolderEntry, l.length ≤ usizeMax → applyLimit none l = l) := by
  refine ⟨sortByRecencyDesc_perm, sortByRecencyDesc_sorted,
    sortByRecencyDesc_stable, by decide, fun l n => rfl, fun l h => ?_⟩
  simp only [applyLimit, Option.getD_none]
  exact List.take_of_length_le h

/-- Witness for C7: the default (absent) limit keeps a concrete
one-entry list whole, and an explicit limit of 1 takes the first entry. -/
theorem claim_C7_witness :
    applyLimit none [(⟨"a".toList, 5⟩ : FolderEntry)] =
      [(⟨"a".toList, 5⟩ : FolderEntry)] ∧
    applyLimit (some 1)
        [(⟨"a".toList, 5⟩ : FolderEntry), ⟨"b".toList, 4⟩] =
      [(⟨"a".toList, 5⟩ : FolderEntry), ⟨"b".toList, 4⟩].take 1 :=
  ⟨claim_C7.2.2.2.2.2 [⟨"a".toList, 5⟩] (by decide),
    claim_C7.2.2.2.2.1 [⟨"a".toList, 5⟩, ⟨"b".toList, 4⟩] 1⟩

/-- C8 (confirmed): for the `FilesFirst` and `DirsFirst` policies the
ordering stage is the stable partition whose first block holds exactly
the entries with `(policy wants files) = (entry is a file)` — both
blocks are order-preserving filters of the input — and `FilesFirst` on
kinds `[Dir, File, Dir, File]` yields `[File, File, Dir, Dir]`. -/
theorem claim_C8 :
    (∀ (order : RecentOrder) (l : List RecentEntry),
      order = RecentOrder.FilesFirst ∨ order = RecentOrder.DirsFirst →
      orderRecentEntries order l =
        l.filter (fun e =>
          (order == RecentOrder.FilesFirst) ==
            (e.t == RecentEntryType.File)) ++
        l.filter (fun e =>
          !((order == RecentOrder.FilesFirst) ==
            (e.t == RecentEntryType.File)))) ∧
    (orderRecentEntries RecentOrder.FilesFirst
        [⟨RecentEntryType.Dir, "a".toList⟩,
          ⟨RecentEntryType.File, "b".toList⟩,
          ⟨RecentEntryType.Dir, "c".toList⟩,
          ⟨RecentEntryType.File, "d".toList⟩]).map (fun e => e.t) =
      [RecentEntryType.File, RecentEntryType.File, RecentEntryType.Dir,
        RecentEntryType.Dir] := by
  constructor
  · intro order l h
    have hxnor : ∀ a b : Bool, (!(Bool.xor a b)) = (a == b) := by decide
    have hxor : ∀ a b : Bool, (!(a == b)) = Bool.xor a b := by decide
    rcases h with rfl | rfl <;>
      simp only [orderRecentEntries, List.partition_eq_filter_filter,
        Function.comp_def, hxnor, hxor, Bool.not_not]
  · decide

/-- Witness for C8: `DirsFirst` on a concrete two-entry list. -/
theorem claim_C8_witness :
    orderRecentEntries RecentOrder.DirsFirst
        [⟨RecentEntryType.Dir, "a".toList⟩,
          ⟨RecentEntryType.File, "b".toList⟩] =
      [⟨RecentEntryType.Dir, "a".toList⟩,
        ⟨RecentEntryType.File, "b".toList⟩] :=
  (claim_C8.1 RecentOrder.DirsFirst
    [⟨RecentEntryType.Dir, "a".toList⟩, ⟨RecentEntryType.File, "b".toList⟩]
    (Or.inr rfl)).trans (by decide)

/-- C9 (confirmed): when `now - maxAgeDays * 86400` underflows the
representable time range, computing the cutoff fails with an error and
both directory-based listings abort with that error before producing
any entry, whatever the directory contents and limit. -/
theorem claim_C9 (now d : Nat)
    (raw : List (Except (List Char) FolderEntry)) (limit : Option Nat)
    (h : now < d * 86400) :
    collect_items_in_workspaces now raw (some d) limit =
      .error "`max-age-days` too big".toList ∧
    collect_items_in_history now raw limit (some d) =
      .error "`max-age-days` too big".toList := by
  have hmin : get_min_system_time_from_max_age_days now d =
      .error "`max-age-days` too big".toList := by
    simp only [get_min_system_time_from_max_age_days, checkedSub]
    rw [if_neg (by omega)]
  constructor <;>
    simp [collect_items_in_workspaces, collect_items_in_history,
      optionTranspose, hmin]

/-- Witness for C9 at `now = 0`, one day of age window. -/
theorem claim_C9_witness :
    collect_items_in_workspaces 0 [] (some 1) none =
      .error "`max-age-days` too big".toList ∧
    collect_items_in_history 0 [] none (some 1) =
      .error "`max-age-days` too big".toList :=
  claim_C9 0 1 [] none (by decide)
